import Mathlib

/-!
Shallow embedding of the estacker lunar-limb detector (lunarlimb source file)
and the affine / color-matrix algebra (pkg/estack/affine.go).

Modelling conventions:
- Go `int` is modelled as `Int` (64-bit overflow is irrelevant at the scales
  the claims concern); Go `uint16` arithmetic is modelled as `Nat` with an
  explicit `% 65536` at each accumulation step.
- An image (Go `image.Image`) is modelled as its bounds rectangle together
  with two per-pixel channel readings: `red` (the value `r` returned by
  `At(x,y).RGBA()`, used only by the centroid scan) and `gray` (the value
  `ColToGrayU16(At(x,y))`, a 16-bit luma computed by the Go code in float64;
  its per-pixel result is taken as an opaque input here, since no claim
  concerns the float arithmetic inside `ColToGrayU16`).
- Go `float64` in the affine/color algebra is modelled as `Real`.
- `log.Fatal` (process termination) is modelled as `Except.error`.
-/

namespace Estack

/-- Integer pixel coordinate, after Go `image.Point`. -/
structure Point where
  x : Int
  y : Int
deriving DecidableEq, Repr

/-- Axis-aligned rectangle with min/max corners, after Go `image.Rectangle`. -/
structure Rect where
  min : Point
  max : Point
deriving DecidableEq, Repr

/-- The zero value of `image.Rectangle`. -/
def Rect.zero : Rect := ⟨⟨0, 0⟩, ⟨0, 0⟩⟩

/-- Inclusive membership of a point in a rectangle (the detector treats
`Max` as an inclusive corner; see the `<=` loops and neighbor guards). -/
def Rect.contains (r : Rect) (p : Point) : Prop :=
  r.min.x ≤ p.x ∧ p.x ≤ r.max.x ∧ r.min.y ≤ p.y ∧ p.y ≤ r.max.y

instance (r : Rect) (p : Point) : Decidable (r.contains p) := by
  unfold Rect.contains; infer_instance

/-- Pixel-addressable image: bounds plus per-pixel red channel and
`ColToGrayU16` gray value (both in `[0, 0xFFFF]` for real images). -/
structure Image where
  bounds : Rect
  red : Point → Nat
  gray : Point → Nat

/-- Go truncated division (`/` on Go ints rounds toward zero). -/
def goDiv (a b : Int) : Int := Int.tdiv a b

/-- The detector's output value, after `LunarLimb` in the Go source. -/
structure LunarLimb where
  luminalCenter : Point := ⟨0, 0⟩
  brightness : Nat := 0
  bounds : Rect := Rect.zero
deriving DecidableEq, Repr

/-- Go source `GrowRectangle(r, p)`: expand each axis of `r`
independently to include `p` (else-if per axis). -/
def GrowRectangle (r : Rect) (p : Point) : Rect :=
  let r1 :=
    if p.x < r.min.x then { r with min := { r.min with x := p.x } }
    else if p.x > r.max.x then { r with max := { r.max with x := p.x } }
    else r
  if p.y < r1.min.y then { r1 with min := { r1.min with y := p.y } }
  else if p.y > r1.max.y then { r1 with max := { r1.max with y := p.y } }
  else r1

/-- Go source `LunarLimb.Grow`: the first accepted point initializes
the bounds, detected via the sentinel `Bounds.Max.X == 0`; later points grow
the rectangle. -/
def LunarLimb.grow (ll : LunarLimb) (p : Point) : LunarLimb :=
  if ll.bounds.max.x = 0 then { ll with bounds := ⟨p, p⟩ }
  else { ll with bounds := GrowRectangle ll.bounds p }

/-- Feeding a sequence of accepted pixels to `LunarLimb.Grow`, one by one,
as the flood fill does. -/
def growAll (ll : LunarLimb) (ps : List Point) : LunarLimb :=
  ps.foldl LunarLimb.grow ll

/-- Go source `LunarLimb.Radius`: `(Dx + Dy) / 4` with Go division. -/
def LunarLimb.radius (ll : LunarLimb) : Int :=
  goDiv ((ll.bounds.max.x - ll.bounds.min.x) + (ll.bounds.max.y - ll.bounds.min.y)) 4

/-- Go source `LunarLimb.Center`. -/
def LunarLimb.center (ll : LunarLimb) : Point :=
  ⟨goDiv (ll.bounds.min.x + ll.bounds.max.x) 2, goDiv (ll.bounds.min.y + ll.bounds.max.y) 2⟩

/-- Inclusive integer range `[lo, hi]` as a list, the index sequence of a Go
loop `for v := lo; v <= hi; v++`. -/
def intRange (lo hi : Int) : List Int :=
  (List.range (hi + 1 - lo).toNat).map (fun (i : Nat) => lo + (i : Int))

/-- The pixels scanned by `computeLuminalCenter`: outer loop over x from
`Min.X` to `Max.X` inclusive, inner loop over y likewise. -/
def scanPoints (b : Rect) : List Point :=
  (intRange b.min.x b.max.x).flatMap (fun x => (intRange b.min.y b.max.y).map (fun y => ⟨x, y⟩))

/-- The centroid scan's acceptance test: `r > 0x0300 && r < 0xfff0`. -/
def qualifies (img : Image) (p : Point) : Bool :=
  decide (0x0300 < img.red p) && decide (img.red p < 0xfff0)

/-- The pixels the centroid scan accepts into its sums. -/
def qualifyingPixels (img : Image) : List Point :=
  (scanPoints img.bounds).filter (fun p => qualifies img p)

/-- The accumulation loop of `computeLuminalCenter`: `(sumX, sumY, n)`. -/
def centroidSums (img : Image) : Int × Int × Int :=
  (scanPoints img.bounds).foldl
    (fun acc p => if qualifies img p then (acc.1 + p.x, acc.2.1 + p.y, acc.2.2 + 1) else acc)
    (0, 0, 0)

/-- Go source `computeLuminalCenter`: centroid of the qualifying
pixels (left at the zero value when none qualify), then the brightness
sample: `uint16` accumulation of `ColToGrayU16` over horizontal offsets
`-5..4` from the centroid, divided by 10. -/
def computeLuminalCenter (img : Image) : LunarLimb :=
  let s := centroidSums img
  if s.2.2 = 0 then {}
  else
    let cx := goDiv s.1 s.2.2
    let cy := goDiv s.2.1 s.2.2
    let bsum := (List.range 10).foldl
      (fun acc (i : Nat) => (acc + img.gray ⟨cx + (i : Int) - 5, cy⟩ % 65536) % 65536) 0
    { luminalCenter := ⟨cx, cy⟩, brightness := bsum / 10 }

/-- The threshold policy of `FindLunarLimb`: `0x1000` by default, lowered to
`0x0040` when the brightness sample is below `0x0015`. -/
def chooseThresh (brightness : Nat) : Nat :=
  if brightness < 0x0015 then 0x0040 else 0x1000

/-- The threshold the flood fill of `FindLunarLimb` uses on `img`. -/
def limbThresh (img : Image) : Nat :=
  chooseThresh (computeLuminalCenter img).brightness

/-- The guarded neighbor positions probed (and enqueued if unvisited) for a
dequeued accepted pixel `p`, in source order: left, up, right, down; each
guard compares against the image bounds (`Max` inclusive). -/
def neighborProbes (b : Rect) (p : Point) : List Point :=
  (if b.min.x < p.x then [Point.mk (p.x - 1) p.y] else []) ++
  (if b.min.y < p.y then [Point.mk p.x (p.y - 1)] else []) ++
  (if p.x < b.max.x then [Point.mk (p.x + 1) p.y] else []) ++
  (if p.y < b.max.y then [Point.mk p.x (p.y + 1)] else [])

/-- The flood-fill loop of `FindLunarLimb`, with explicit fuel (the Go loop
runs until the queue empties; `fillFuel` below is proved sufficient).
State: FIFO queue, visited set (the `seen` grid), the limb being grown, and
the list of indices used to access the `seen` array (for the safety claim).
Each dequeued point is an access; a visited point is skipped; an unvisited
point is marked; a point brighter than the threshold is dropped; otherwise
the bounds grow and the four guarded neighbors are probed (each probe is an
access) and enqueued when unvisited. -/
def fillLoop (b : Rect) (g : Point → Nat) (t : Nat) :
    Nat → List Point → Finset Point → LunarLimb → List Point →
    LunarLimb × Finset Point × List Point
  | 0, _, seen, ll, acc => (ll, seen, acc)
  | _ + 1, [], seen, ll, acc => (ll, seen, acc)
  | fuel + 1, p :: rest, seen, ll, acc =>
    if p ∈ seen then fillLoop b g t fuel rest seen ll (acc ++ [p])
    else if t < g p then fillLoop b g t fuel rest (insert p seen) ll (acc ++ [p])
    else
      let probes := neighborProbes b p
      fillLoop b g t fuel (rest ++ probes.filter (fun q => ¬ q ∈ insert p seen))
        (insert p seen) (ll.grow p) (acc ++ [p] ++ probes)

/-- Finite universe of points the fill can ever touch: the coordinate hull
of the image bounds and the seed. -/
def fillU (b : Rect) (s : Point) : Finset Point :=
  ((Finset.Icc (min b.min.x s.x) (max b.max.x s.x)) ×ˢ
    (Finset.Icc (min b.min.y s.y) (max b.max.y s.y))).image (fun q => ⟨q.1, q.2⟩)

/-- Fuel sufficient for the fill to drain its queue (proved later). -/
def fillFuel (b : Rect) (s : Point) : Nat := 5 * (fillU b s).card + 1

/-- The `LunarLimb` computed by `FindLunarLimb` just before the zero-radius
check: centroid/brightness step, threshold choice, then the flood fill
seeded at the luminal center. -/
def findLunarLimbLL (img : Image) : LunarLimb :=
  let ll0 := computeLuminalCenter img
  (fillLoop img.bounds img.gray (chooseThresh ll0.brightness)
    (fillFuel img.bounds ll0.luminalCenter) [ll0.luminalCenter] ∅ ll0 []).1

/-- The indices with which `FindLunarLimb` accesses the `seen` array. -/
def findLunarLimbAccesses (img : Image) : List Point :=
  let ll0 := computeLuminalCenter img
  (fillLoop img.bounds img.gray (chooseThresh ll0.brightness)
    (fillFuel img.bounds ll0.luminalCenter) [ll0.luminalCenter] ∅ ll0 []).2.2

/-- Go source `FindLunarLimb`: `log.Fatal` on zero radius (modelled as an error),
otherwise the limb is returned. -/
def findLunarLimb (img : Image) : Except Unit LunarLimb :=
  let ll := findLunarLimbLL img
  if ll.radius = 0 then Except.error () else Except.ok ll

/-! ### Specification-side definitions (reachability and bounding boxes) -/

/-- Reachability through dark pixels. `RA b g t avoid p q` holds when there
is a chain from `p` to `q` whose steps are the fill's guarded 4-neighbor
moves (`neighborProbes`), every pixel of the chain (endpoints included) has
gray value at most `t`, and no pixel of the chain lies in `avoid`. With
`avoid = ∅` this is exactly the spec's "reachable from the seed by
4-connectivity without crossing the threshold". -/
inductive RA (b : Rect) (g : Point → Nat) (t : Nat) (avoid : Finset Point) : Point → Point → Prop
  | refl (p : Point) (hg : g p ≤ t) (hp : p ∉ avoid) : RA b g t avoid p p
  | step (p q r : Point) (h : RA b g t avoid p q) (hr : r ∈ neighborProbes b q)
      (hg : g r ≤ t) (hp : r ∉ avoid) : RA b g t avoid p r

/-- The set of pixels accepted by the fill according to the spec: dark
pixels reachable from the centroid seed without crossing the threshold. -/
def limbReach (img : Image) : Set Point :=
  {q | RA img.bounds img.gray (limbThresh img) ∅ (computeLuminalCenter img).luminalCenter q}

/-- The rectangle `r` is the exact bounding rectangle of the finite point set `G`:
it contains every point of `G` and all four of its edges are attained. -/
def TightFor (G : Finset Point) (r : Rect) : Prop :=
  (∀ q ∈ G, r.contains q) ∧
    (∃ q ∈ G, q.x = r.min.x) ∧ (∃ q ∈ G, q.x = r.max.x) ∧
    (∃ q ∈ G, q.y = r.min.y) ∧ (∃ q ∈ G, q.y = r.max.y)

/-- The rectangle `r` is the exact bounding rectangle of the (possibly empty) point set
`A`: every point lies inside, and either `A` is empty and `r` is the zero
rectangle, or all four edges of `r` are attained by points of `A`. -/
def IsBoundingRect (A : Set Point) (r : Rect) : Prop :=
  (∀ q ∈ A, r.contains q) ∧
    ((A = ∅ ∧ r = Rect.zero) ∨
      ((∃ q ∈ A, q.x = r.min.x) ∧ (∃ q ∈ A, q.x = r.max.x) ∧
       (∃ q ∈ A, q.y = r.min.y) ∧ (∃ q ∈ A, q.y = r.max.y)))

/-- In-range index pair for the fixed `[10000][10000]bool` visited grid. -/
def accessInRange (p : Point) : Prop :=
  0 ≤ p.x ∧ p.x < 10000 ∧ 0 ≤ p.y ∧ p.y < 10000

instance (p : Point) : Decidable (accessInRange p) := by
  unfold accessInRange; infer_instance

/-! ### Affine and color matrix algebra (pkg/estack/affine.go)

Go `float64` is modelled as `Real`; the claims about this algebra are exact
identities, which hold exactly over the reals. -/

noncomputable section

/-- Row-major 2x3 affine matrix, after `MyAff3` (`f64.Aff3`): entries
`a00 a01 a02` form the first row, `a10 a11 a12` the second. -/
structure MyAff3 where
  a00 : Real
  a01 : Real
  a02 : Real
  a10 : Real
  a11 : Real
  a12 : Real

/-- Go source `MyAff3.MatMult` (matMul of image/draw). -/
def MyAff3.matMult (p q : MyAff3) : MyAff3 :=
  ⟨p.a00 * q.a00 + p.a01 * q.a10,
   p.a00 * q.a01 + p.a01 * q.a11,
   p.a00 * q.a02 + p.a01 * q.a12 + p.a02,
   p.a10 * q.a00 + p.a11 * q.a10,
   p.a10 * q.a01 + p.a11 * q.a11,
   p.a10 * q.a02 + p.a11 * q.a12 + p.a12⟩

/-- Go source `MatIdentity`. -/
def MatIdentity : MyAff3 := ⟨1, 0, 0, 0, 1, 0⟩

/-- Go source `MyAff3.MatTranslate`. -/
def MyAff3.matTranslate (m1 : MyAff3) (tx ty : Real) : MyAff3 :=
  m1.matMult ⟨1, 0, tx, 0, 1, ty⟩

/-- Cosine of an angle given in degrees, as computed by `MatRotate`. -/
def cosDeg (thetaDeg : Real) : Real := Real.cos (thetaDeg * Real.pi / 180)

/-- Sine of an angle given in degrees, as computed by `MatRotate`. -/
def sinDeg (thetaDeg : Real) : Real := Real.sin (thetaDeg * Real.pi / 180)

/-- Go source `MyAff3.MatRotate`. -/
def MyAff3.matRotate (m1 : MyAff3) (thetaDeg : Real) : MyAff3 :=
  m1.matMult ⟨cosDeg thetaDeg, -1 * sinDeg thetaDeg, 0, sinDeg thetaDeg, cosDeg thetaDeg, 0⟩

/-- Go source `MatRotateAbout`: translate the pivot to the origin,
rotate, translate back (rightmost operation applied first). -/
def MatRotateAbout (thetaDeg x y : Real) : MyAff3 :=
  ((MatIdentity.matTranslate x y).matRotate thetaDeg).matTranslate (-1 * x) (-1 * y)

/-- Modelled from the spec: application of a 2x3 affine matrix to a 2D
point ("6 coefficients (2 rows x 3 columns) representing a 2D affine
map"). The repository composes these matrices but hands them to the
external image/draw library for application, so the application map itself
is not in the sources. -/
def MyAff3.apply (m : MyAff3) (x y : Real) : Real × Real :=
  (m.a00 * x + m.a01 * y + m.a02, m.a10 * x + m.a11 * y + m.a12)

/-- 3-component vector, after `MyVec3` (`f64.Vec3`). -/
structure MyVec3 where
  v0 : Real
  v1 : Real
  v2 : Real

/-- Row-major 3x3 matrix, after `MyMat3` (`f64.Mat3`). -/
structure MyMat3 where
  m00 : Real
  m01 : Real
  m02 : Real
  m10 : Real
  m11 : Real
  m12 : Real
  m20 : Real
  m21 : Real
  m22 : Real

/-- Go source `MyMat3.Apply`: matrix-vector product. -/
def MyMat3.apply (m : MyMat3) (v : MyVec3) : MyVec3 :=
  ⟨m.m00 * v.v0 + m.m01 * v.v1 + m.m02 * v.v2,
   m.m10 * v.v0 + m.m11 * v.v1 + m.m12 * v.v2,
   m.m20 * v.v0 + m.m21 * v.v1 + m.m22 * v.v2⟩

/-- Go source `MyVec3.InvertDiag`: place the vector on the
diagonal of a matrix, then invert it. -/
def MyVec3.invertDiag (v : MyVec3) : MyMat3 :=
  ⟨1.0 / v.v0, 0, 0,
   0, 1.0 / v.v1, 0,
   0, 0, 1.0 / v.v2⟩

end

/-! ### Concrete test images -/

/-- Two-pixel image whose centroid seed lands at x = 0: pixels (0,0) and
(1,0), both dark; only (0,0) has a qualifying red value. -/
def imgSeed0 : Image :=
  { bounds := ⟨⟨0, 0⟩, ⟨1, 0⟩⟩
    red := fun p => if p = ⟨0, 0⟩ then 0x0400 else 0
    gray := fun _ => 0 }

/-- Three-pixel row image with centroid seed at (1,0); all pixels dark. -/
def imgRow3 : Image :=
  { bounds := ⟨⟨0, 0⟩, ⟨2, 0⟩⟩
    red := fun p => if p = ⟨1, 0⟩ then 0x0400 else 0
    gray := fun _ => 0 }

/-- One-pixel image of maximal gray: the brightness accumulator wraps. -/
def imgBright : Image :=
  { bounds := ⟨⟨0, 0⟩, ⟨0, 0⟩⟩
    red := fun _ => 0x0400
    gray := fun _ => 0xFFFF }

/-- Image with no qualifying red pixel (degenerate centroid). -/
def imgNoQual : Image :=
  { bounds := ⟨⟨0, 0⟩, ⟨1, 0⟩⟩
    red := fun _ => 0
    gray := fun _ => 0x2000 }

/-- Image whose bounds reach coordinate 10000 but whose fill is blocked at
the seed: every pixel is brighter than the default threshold. -/
def imgWide : Image :=
  { bounds := ⟨⟨9999, 0⟩, ⟨10000, 0⟩⟩
    red := fun _ => 0x0400
    gray := fun _ => 0x2000 }

/-- Dark image whose bounds reach coordinate 10000 and whose fill reaches
the rightmost pixel, probing index 10000. -/
def imgEdge : Image :=
  { bounds := ⟨⟨9998, 0⟩, ⟨10000, 0⟩⟩
    red := fun p => if p = ⟨9998, 0⟩ then 0x0400 else 0
    gray := fun _ => 0 }

/-- Fully dark 3x3 image with centroid seed at its center (1,1); the fill
accepts all nine pixels, giving a nonzero radius. -/
def imgBox : Image :=
  { bounds := ⟨⟨0, 0⟩, ⟨2, 2⟩⟩
    red := fun p => if p = ⟨1, 1⟩ then 0x0400 else 0
    gray := fun _ => 0 }

/-! ### Basic membership lemmas -/

theorem mem_intRange {lo hi v : Int} : v ∈ intRange lo hi ↔ lo ≤ v ∧ v ≤ hi := by
  constructor
  · intro h
    obtain ⟨i, hi', hv⟩ := List.mem_map.mp h
    have hi2 : i < (hi + 1 - lo).toNat := List.mem_range.mp hi'
    omega
  · intro h
    exact List.mem_map.mpr ⟨(v - lo).toNat, List.mem_range.mpr (by omega), by omega⟩

theorem mem_scanPoints {b : Rect} {p : Point} : p ∈ scanPoints b ↔ b.contains p := by
  unfold scanPoints Rect.contains
  simp only [List.mem_flatMap, List.mem_map]
  constructor
  · rintro ⟨x, hx, y, hy, rfl⟩
    rw [mem_intRange] at hx hy
    exact ⟨hx.1, hx.2, hy.1, hy.2⟩
  · rintro ⟨h1, h2, h3, h4⟩
    exact ⟨p.x, mem_intRange.mpr ⟨h1, h2⟩, p.y, mem_intRange.mpr ⟨h3, h4⟩, rfl⟩

theorem mem_ite_singleton {c : Prop} [Decidable c] {a q : Point} :
    (q ∈ if c then [a] else []) ↔ c ∧ q = a := by
  split <;> simp_all

theorem mem_neighborProbes {b : Rect} {p q : Point} :
    q ∈ neighborProbes b p ↔
      (b.min.x < p.x ∧ q = ⟨p.x - 1, p.y⟩) ∨ (b.min.y < p.y ∧ q = ⟨p.x, p.y - 1⟩) ∨
      (p.x < b.max.x ∧ q = ⟨p.x + 1, p.y⟩) ∨ (p.y < b.max.y ∧ q = ⟨p.x, p.y + 1⟩) := by
  simp only [neighborProbes, List.mem_append, mem_ite_singleton, or_assoc]

theorem length_neighborProbes_le (b : Rect) (p : Point) :
    (neighborProbes b p).length ≤ 4 := by
  unfold neighborProbes
  split <;> split <;> split <;> split <;> simp

theorem mem_fillU {b : Rect} {s q : Point} :
    q ∈ fillU b s ↔
      min b.min.x s.x ≤ q.x ∧ q.x ≤ max b.max.x s.x ∧
      min b.min.y s.y ≤ q.y ∧ q.y ≤ max b.max.y s.y := by
  unfold fillU
  simp only [Finset.mem_image, Finset.mem_product, Finset.mem_Icc]
  constructor
  · rintro ⟨⟨a, c⟩, ⟨⟨h1, h2⟩, h3, h4⟩, rfl⟩
    exact ⟨h1, h2, h3, h4⟩
  · rintro ⟨h1, h2, h3, h4⟩
    exact ⟨(q.x, q.y), ⟨⟨h1, h2⟩, h3, h4⟩, rfl⟩

theorem seed_mem_fillU (b : Rect) (s : Point) : s ∈ fillU b s := by
  rw [mem_fillU]
  omega

theorem probes_mem_fillU {b : Rect} {s p q : Point} (hp : p ∈ fillU b s)
    (hq : q ∈ neighborProbes b p) : q ∈ fillU b s := by
  rw [mem_fillU] at hp ⊢
  rcases mem_neighborProbes.mp hq with ⟨h, rfl⟩ | ⟨h, rfl⟩ | ⟨h, rfl⟩ | ⟨h, rfl⟩ <;>
    simp_all <;> omega

theorem RA.start_le {b g t avoid} {p q : Point} (h : RA b g t avoid p q) : g p ≤ t := by
  induction h with
  | refl hg hp => exact hg
  | step q r h hr hg hp ih => exact ih

theorem RA.start_not_mem {b g t avoid} {p q : Point} (h : RA b g t avoid p q) : p ∉ avoid := by
  induction h with
  | refl hg hp => exact hp
  | step q r h hr hg hp ih => exact ih

theorem RA.end_le {b g t avoid} {p q : Point} (h : RA b g t avoid p q) : g q ≤ t := by
  cases h with
  | refl hg hp => exact hg
  | step a c hh hr hg hp => exact hg

theorem RA.end_not_mem {b g t avoid} {p q : Point} (h : RA b g t avoid p q) : q ∉ avoid := by
  cases h with
  | refl hg hp => exact hp
  | step a c hh hr hg hp => exact hp

theorem RA.reaches_within_fillU {b g t avoid} {s q : Point} (h : RA b g t avoid s q) :
    q ∈ fillU b s := by
  induction h with
  | refl hg hp => exact seed_mem_fillU b _
  | step q r h hr hg hp ih => exact probes_mem_fillU ih hr

/-- Inserting a high (rejected) pixel into the avoid set does not cut any
dark chain: every pixel on a chain has gray at most `t`. -/
theorem RA.insert_of_gt {b g t avoid} {x p q : Point} (hx : t < g x)
    (h : RA b g t avoid p q) : RA b g t (insert x avoid) p q := by
  induction h with
  | refl hg hp =>
    refine RA.refl _ hg ?_
    intro hmem
    rcases Finset.mem_insert.mp hmem with rfl | hmem
    · omega
    · exact hp hmem
  | step q r h hr hg hp ih =>
    refine RA.step _ q r ih hr hg ?_
    intro hmem
    rcases Finset.mem_insert.mp hmem with rfl | hmem
    · omega
    · exact hp hmem

/-- Visiting a dark pixel `x` decomposes surviving chains: a chain from `r`
to `q` avoiding `seen` either already avoids `insert x seen`, or can be
restarted at a probe of `x`, or ends at `x` itself. -/
theorem RA.insert_decomp {b g t seen} {x r q : Point} (h : RA b g t seen r q) :
    RA b g t (insert x seen) r q ∨
      (∃ p2, p2 ∈ neighborProbes b x ∧ RA b g t (insert x seen) p2 q) ∨ q = x := by
  induction h with
  | refl hg hp =>
    by_cases hx : r = x
    · exact Or.inr (Or.inr hx)
    · exact Or.inl (RA.refl r hg (by simp [Finset.mem_insert, hx, hp]))
  | step q' r' h hr hg hp ih =>
    by_cases hx : r' = x
    · exact Or.inr (Or.inr hx)
    have hrm : r' ∉ insert x seen := by simp [Finset.mem_insert, hx, hp]
    rcases ih with h1 | ⟨p2, hp2, h2⟩ | rfl
    · exact Or.inl (RA.step _ q' r' h1 hr hg hrm)
    · exact Or.inr (Or.inl ⟨p2, hp2, RA.step p2 q' r' h2 hr hg hrm⟩)
    · exact Or.inr (Or.inl ⟨r', hr, RA.refl r' hg hrm⟩)

theorem TightFor.singleton (p : Point) : TightFor {p} ⟨p, p⟩ := by
  refine ⟨?_, ⟨p, by simp, rfl⟩, ⟨p, by simp, rfl⟩, ⟨p, by simp, rfl⟩, ⟨p, by simp, rfl⟩⟩
  intro q hq
  rw [Finset.mem_singleton] at hq
  subst hq
  exact ⟨le_refl _, le_refl _, le_refl _, le_refl _⟩

theorem GrowRectangle_eq {r : Rect} (p : Point) (hx : r.min.x ≤ r.max.x)
    (hy : r.min.y ≤ r.max.y) :
    GrowRectangle r p =
      ⟨⟨min r.min.x p.x, min r.min.y p.y⟩, ⟨max r.max.x p.x, max r.max.y p.y⟩⟩ := by
  obtain ⟨⟨ax, ay⟩, ⟨cx, cy⟩⟩ := r
  obtain ⟨px, py⟩ := p
  simp only [GrowRectangle]
  simp only at hx hy
  split_ifs <;> simp_all [Rect.mk.injEq, Point.mk.injEq] <;> omega

theorem TightFor.grow {G : Finset Point} {r : Rect} (h : TightFor G r) (p : Point) :
    TightFor (insert p G) (GrowRectangle r p) := by
  obtain ⟨hcont, ⟨q1, hq1, he1⟩, ⟨q2, hq2, he2⟩, ⟨q3, hq3, he3⟩, ⟨q4, hq4, he4⟩⟩ := h
  have h1 := hcont q1 hq1
  have h3 := hcont q3 hq3
  obtain ⟨h1a, h1b, h1c, h1d⟩ := h1
  obtain ⟨h3a, h3b, h3c, h3d⟩ := h3
  rw [GrowRectangle_eq p (by omega) (by omega)]
  refine ⟨?_, ?_, ?_, ?_, ?_⟩
  · intro q hq
    rcases Finset.mem_insert.mp hq with rfl | hq
    · exact ⟨by simp, by simp, by simp, by simp⟩
    · obtain ⟨ha, hb, hc, hd⟩ := hcont q hq
      exact ⟨by simp; omega, by simp; omega, by simp; omega, by simp; omega⟩
  · rcases le_total r.min.x p.x with hle | hle
    · exact ⟨q1, Finset.mem_insert_of_mem hq1, by simp; omega⟩
    · exact ⟨p, Finset.mem_insert_self p G, by simp; omega⟩
  · rcases le_total p.x r.max.x with hle | hle
    · exact ⟨q2, Finset.mem_insert_of_mem hq2, by
        obtain ⟨ha, hb, hc, hd⟩ := hcont q2 hq2
        simp
        omega⟩
    · exact ⟨p, Finset.mem_insert_self p G, by simp; omega⟩
  · rcases le_total r.min.y p.y with hle | hle
    · exact ⟨q3, Finset.mem_insert_of_mem hq3, by simp; omega⟩
    · exact ⟨p, Finset.mem_insert_self p G, by simp; omega⟩
  · rcases le_total p.y r.max.y with hle | hle
    · exact ⟨q4, Finset.mem_insert_of_mem hq4, by
        obtain ⟨ha, hb, hc, hd⟩ := hcont q4 hq4
        simp
        omega⟩
    · exact ⟨p, Finset.mem_insert_self p G, by simp; omega⟩

/-! ### Flood-fill correctness -/

theorem fill_final (b : Rect) (g : Point → Nat) (t : Nat) (s : Point)
    (seen : Finset Point) (ll : LunarLimb)
    (hsS : ∀ r ∈ seen, g r ≤ t → RA b g t ∅ s r)
    (hcompl : ∀ q : Point, RA b g t ∅ s q → q ∈ seen)
    (hbd : (seen.filter (fun q => g q ≤ t) = ∅ ∧ ll.bounds = Rect.zero) ∨
      (s ∈ seen.filter (fun q => g q ≤ t) ∧ TightFor (seen.filter (fun q => g q ≤ t)) ll.bounds)) :
    IsBoundingRect {q | RA b g t ∅ s q} ll.bounds := by
  have hGA : ∀ q : Point, q ∈ seen.filter (fun q => g q ≤ t) ↔ RA b g t ∅ s q := by
    intro q
    rw [Finset.mem_filter]
    constructor
    · rintro ⟨h1, h2⟩
      exact hsS q h1 h2
    · intro h
      exact ⟨hcompl q h, h.end_le⟩
  rcases hbd with ⟨hG, hz⟩ | ⟨hsG, hcont, e1, e2, e3, e4⟩
  · have hA : {q : Point | RA b g t ∅ s q} = ∅ := by
      ext q
      simp only [Set.mem_setOf_eq, Set.mem_empty_iff_false, iff_false]
      intro h
      have := (hGA q).mpr h
      simp [hG] at this
    refine ⟨?_, Or.inl ⟨hA, hz⟩⟩
    intro q hq
    rw [hA] at hq
    exact absurd hq (by simp)
  · refine ⟨?_, Or.inr ⟨?_, ?_, ?_, ?_⟩⟩
    · intro q hq
      exact hcont q ((hGA q).mpr hq)
    · obtain ⟨q, hq, he⟩ := e1
      exact ⟨q, (hGA q).mp hq, he⟩
    · obtain ⟨q, hq, he⟩ := e2
      exact ⟨q, (hGA q).mp hq, he⟩
    · obtain ⟨q, hq, he⟩ := e3
      exact ⟨q, (hGA q).mp hq, he⟩
    · obtain ⟨q, hq, he⟩ := e4
      exact ⟨q, (hGA q).mp hq, he⟩

theorem fillLoop_invariant (b : Rect) (g : Point → Nat) (t : Nat) (s : Point)
    (hsx : 0 < s.x) :
    ∀ (fuel : Nat) (queue : List Point) (seen : Finset Point) (ll : LunarLimb) (acc : List Point),
      5 * ((fillU b s) \ seen).card + queue.length ≤ fuel →
      (∀ r ∈ queue, r ∈ fillU b s) →
      (∀ r ∈ queue, g r ≤ t → RA b g t ∅ s r) →
      (∀ r ∈ seen, g r ≤ t → RA b g t ∅ s r) →
      (∀ q : Point, RA b g t ∅ s q → q ∈ seen ∨ ∃ r ∈ queue, RA b g t seen r q) →
      ((seen.filter (fun q => g q ≤ t) = ∅ ∧ (∀ r ∈ queue, r = s) ∧ ll.bounds = Rect.zero) ∨
        (s ∈ seen.filter (fun q => g q ≤ t) ∧
          TightFor (seen.filter (fun q => g q ≤ t)) ll.bounds)) →
      IsBoundingRect {q | RA b g t ∅ s q} ((fillLoop b g t fuel queue seen ll acc).1).bounds := by
  intro fuel
  induction fuel with
  | zero =>
    intro queue seen ll acc hfuel hqU hqS hsS hcompl hbd
    have hq : queue = [] := by
      cases queue with
      | nil => rfl
      | cons p rest => simp at hfuel
    subst hq
    show IsBoundingRect _ ll.bounds
    refine fill_final b g t s seen ll hsS ?_ ?_
    · intro q hq
      rcases hcompl q hq with h | ⟨r, hr, _⟩
      · exact h
      · exact absurd hr (by simp)
    · rcases hbd with ⟨h1, _, h3⟩ | h
      · exact Or.inl ⟨h1, h3⟩
      · exact Or.inr h
  | succ fuel ih =>
    intro queue seen ll acc hfuel hqU hqS hsS hcompl hbd
    cases queue with
    | nil =>
      show IsBoundingRect _ ll.bounds
      refine fill_final b g t s seen ll hsS ?_ ?_
      · intro q hq
        rcases hcompl q hq with h | ⟨r, hr, _⟩
        · exact h
        · exact absurd hr (by simp)
      · rcases hbd with ⟨h1, _, h3⟩ | h
        · exact Or.inl ⟨h1, h3⟩
        · exact Or.inr h
    | cons p rest =>
      have hpU : p ∈ fillU b s := hqU p (List.mem_cons_self p rest)
      simp only [fillLoop]
      by_cases hp : p ∈ seen
      · rw [if_pos hp]
        apply ih rest seen ll (acc ++ [p])
        · simp only [List.length_cons] at hfuel
          omega
        · intro r hr
          exact hqU r (List.mem_cons_of_mem p hr)
        · intro r hr
          exact hqS r (List.mem_cons_of_mem p hr)
        · exact hsS
        · intro q hq
          rcases hcompl q hq with h | ⟨r, hr, hRA⟩
          · exact Or.inl h
          · rcases List.mem_cons.mp hr with rfl | hr
            · exact absurd hp hRA.start_not_mem
            · exact Or.inr ⟨r, hr, hRA⟩
        · rcases hbd with ⟨h1, h2, h3⟩ | h
          · exact Or.inl ⟨h1, fun r hr => h2 r (List.mem_cons_of_mem p hr), h3⟩
          · exact Or.inr h
      · rw [if_neg hp]
        have hcard : ((fillU b s) \ insert p seen).card + 1 = ((fillU b s) \ seen).card := by
          have hmem : p ∈ (fillU b s) \ seen := Finset.mem_sdiff.mpr ⟨hpU, hp⟩
          have : (fillU b s) \ insert p seen = ((fillU b s) \ seen).erase p := by
            ext q
            simp only [Finset.mem_sdiff, Finset.mem_insert, Finset.mem_erase]
            tauto
          rw [this, Finset.card_erase_of_mem hmem]
          have : 0 < ((fillU b s) \ seen).card := Finset.card_pos.mpr ⟨p, hmem⟩
          omega
        by_cases hgt : t < g p
        · rw [if_pos hgt]
          apply ih rest (insert p seen) ll (acc ++ [p])
          · simp only [List.length_cons] at hfuel
            omega
          · intro r hr
            exact hqU r (List.mem_cons_of_mem p hr)
          · intro r hr
            exact hqS r (List.mem_cons_of_mem p hr)
          · intro r hr hg
            rcases Finset.mem_insert.mp hr with rfl | hr
            · omega
            · exact hsS r hr hg
          · intro q hq
            rcases hcompl q hq with h | ⟨r, hr, hRA⟩
            · exact Or.inl (Finset.mem_insert_of_mem h)
            · rcases List.mem_cons.mp hr with rfl | hr
              · have := hRA.start_le
                omega
              · exact Or.inr ⟨r, hr, hRA.insert_of_gt hgt⟩
          · have hfilter : (insert p seen).filter (fun q => g q ≤ t) =
                seen.filter (fun q => g q ≤ t) := by
              rw [Finset.filter_insert, if_neg (by omega)]
            rw [hfilter]
            rcases hbd with ⟨h1, h2, h3⟩ | h
            · exact Or.inl ⟨h1, fun r hr => h2 r (List.mem_cons_of_mem p hr), h3⟩
            · exact Or.inr h
        · rw [if_neg hgt]
          have hgp : g p ≤ t := by omega
          have hRAp : RA b g t ∅ s p := hqS p (List.mem_cons_self p rest) hgp
          have hfilter : (insert p seen).filter (fun q => g q ≤ t) =
              insert p (seen.filter (fun q => g q ≤ t)) := by
            rw [Finset.filter_insert, if_pos hgp]
          have hlen : ((neighborProbes b p).filter
              (fun q => ¬ q ∈ insert p seen)).length ≤ 4 :=
            le_trans (List.length_filter_le _ _) (length_neighborProbes_le b p)
          apply ih _ (insert p seen) (ll.grow p) (acc ++ [p] ++ neighborProbes b p)
          · simp only [List.length_append, List.length_cons] at hfuel ⊢
            omega
          · intro r hr
            rcases List.mem_append.mp hr with hr | hr
            · exact hqU r (List.mem_cons_of_mem p hr)
            · have := List.mem_filter.mp hr
              exact probes_mem_fillU hpU this.1
          · intro r hr hg
            rcases List.mem_append.mp hr with hr | hr
            · exact hqS r (List.mem_cons_of_mem p hr) hg
            · have hpr := List.mem_filter.mp hr
              exact RA.step s p r hRAp hpr.1 hg (Finset.not_mem_empty r)
          · intro r hr hg
            rcases Finset.mem_insert.mp hr with rfl | hr
            · exact hRAp
            · exact hsS r hr hg
          · intro q hq
            rcases hcompl q hq with h | ⟨r, hr, hRA⟩
            · exact Or.inl (Finset.mem_insert_of_mem h)
            · have hdec := hRA.insert_decomp (x := p)
              rcases hdec with h1 | ⟨p2, hp2, h2⟩ | rfl
              · rcases List.mem_cons.mp hr with rfl | hr
                · exact absurd (Finset.mem_insert_self r seen) h1.start_not_mem
                · exact Or.inr ⟨r, List.mem_append.mpr (Or.inl hr), h1⟩
              · refine Or.inr ⟨p2, List.mem_append.mpr (Or.inr ?_), h2⟩
                rw [List.mem_filter]
                refine ⟨hp2, ?_⟩
                simpa using h2.start_not_mem
              · exact Or.inl (Finset.mem_insert_self q seen)
          · rw [hfilter]
            rcases hbd with ⟨h1, h2, h3⟩ | ⟨hsG, htight⟩
            · have hps : p = s := h2 p (List.mem_cons_self p rest)
              subst hps
              have hgrow : (ll.grow p).bounds = ⟨p, p⟩ := by
                unfold LunarLimb.grow
                rw [if_pos (by rw [h3]; rfl)]
              rw [h1, hgrow]
              exact Or.inr ⟨Finset.mem_insert_self p ∅, TightFor.singleton p⟩
            · have hmx : ll.bounds.max.x ≠ 0 := by
                have := (htight.1 s hsG).2.1
                omega
              have hgrow : (ll.grow p).bounds = GrowRectangle ll.bounds p := by
                unfold LunarLimb.grow
                rw [if_neg hmx]
              rw [hgrow]
              exact Or.inr ⟨Finset.mem_insert_of_mem hsG, htight.grow p⟩

theorem computeLuminalCenter_bounds (img : Image) :
    (computeLuminalCenter img).bounds = Rect.zero := by
  unfold computeLuminalCenter
  dsimp only
  split <;> rfl

/-- C1, amended with the hypothesis that the centroid seed has positive x
coordinate (see the counterexample: when the first accepted pixel has
x = 0, the `Bounds.Max.X == 0` emptiness sentinel in `Grow` fires again and
discards it): the flood-fill step of `FindLunarLimb` computes as
`LunarLimb.Bounds` exactly the bounding rectangle of the set of pixels with
`toGray` value at most the threshold that are reachable from the centroid
seed by the fill's guarded 4-connectivity steps through pixels that do not
exceed the threshold; a pixel whose gray value exceeds the threshold is
never part of that set (it is not recorded and not expanded through). -/
theorem c1_floodfill_bounding_rect (img : Image)
    (hsx : 0 < (computeLuminalCenter img).luminalCenter.x) :
    IsBoundingRect (limbReach img) (findLunarLimbLL img).bounds ∧
      ∀ q : Point, limbThresh img < img.gray q → q ∉ limbReach img := by
  constructor
  · show IsBoundingRect
      {q | RA img.bounds img.gray (limbThresh img) ∅ (computeLuminalCenter img).luminalCenter q}
      ((fillLoop img.bounds img.gray (limbThresh img)
        (fillFuel img.bounds (computeLuminalCenter img).luminalCenter)
        [(computeLuminalCenter img).luminalCenter] ∅ (computeLuminalCenter img) []).1).bounds
    refine fillLoop_invariant img.bounds img.gray (limbThresh img)
      (computeLuminalCenter img).luminalCenter hsx
      (fillFuel img.bounds (computeLuminalCenter img).luminalCenter)
      [(computeLuminalCenter img).luminalCenter] ∅ (computeLuminalCenter img) []
      ?_ ?_ ?_ ?_ ?_ ?_
    · simp [fillFuel]
    · intro r hr
      rw [List.mem_singleton] at hr
      subst hr
      exact seed_mem_fillU _ _
    · intro r hr hg
      rw [List.mem_singleton] at hr
      subst hr
      exact RA.refl _ hg (Finset.not_mem_empty _)
    · intro r hr
      exact absurd hr (Finset.not_mem_empty r)
    · intro q hq
      exact Or.inr ⟨_, List.mem_singleton_self _, hq⟩
    · exact Or.inl ⟨Finset.filter_empty _, fun r hr => List.mem_singleton.mp hr,
        computeLuminalCenter_bounds img⟩
  · intro q hq hmem
    have h2 : RA img.bounds img.gray (limbThresh img) ∅
        (computeLuminalCenter img).luminalCenter q := hmem
    have := h2.end_le
    omega

/-- C1 counterexample: on `imgSeed0` the centroid seed is (0,0); both of
the image's pixels are dark and mutually reachable, but the computed bounds
are the single point (1,0), which is not a bounding rectangle of the
reachable dark set (it does not contain (0,0)): the claim as stated fails. -/
theorem c1_floodfill_counterexample :
    ¬ IsBoundingRect (limbReach imgSeed0) (findLunarLimbLL imgSeed0).bounds := by
  intro h
  have hseed : (computeLuminalCenter imgSeed0).luminalCenter = ⟨0, 0⟩ := by decide
  have h00 : (⟨0, 0⟩ : Point) ∈ limbReach imgSeed0 := by
    show RA imgSeed0.bounds imgSeed0.gray (limbThresh imgSeed0) ∅
      (computeLuminalCenter imgSeed0).luminalCenter ⟨0, 0⟩
    rw [hseed]
    exact RA.refl _ (by decide) (Finset.not_mem_empty _)
  have hc := h.1 ⟨0, 0⟩ h00
  have hb : (findLunarLimbLL imgSeed0).bounds = ⟨⟨1, 0⟩, ⟨1, 0⟩⟩ := by decide
  rw [hb] at hc
  exact absurd hc.1 (by decide)

/-- C1 witness: the amended theorem applied to the concrete image
`imgRow3`, whose centroid seed (1,0) has positive x coordinate. -/
theorem c1_floodfill_bounding_rect_witness :
    IsBoundingRect (limbReach imgRow3) (findLunarLimbLL imgRow3).bounds ∧
      ∀ q : Point, limbThresh imgRow3 < imgRow3.gray q → q ∉ limbReach imgRow3 :=
  c1_floodfill_bounding_rect imgRow3 (by decide)

/-- C2: evaluation of the code at the failing input. Feeding `Grow` the
accepted pixels (0,5) and then (3,5) (a fresh limb, as the fill does)
collapses the bounds to the single point (3,5): the accepted pixel (0,5)
does not lie within the recorded bounds, because the emptiness sentinel
`Bounds.Max.X == 0` fires again on the second call. This contradicts the
claimed invariant for accepted pixels with x coordinate 0. -/
theorem c2_grow_drops_accepted_pixel :
    (growAll {} [⟨0, 5⟩, ⟨3, 5⟩]).bounds = ⟨⟨3, 5⟩, ⟨3, 5⟩⟩ ∧
      ¬ (growAll {} [⟨0, 5⟩, ⟨3, 5⟩]).bounds.contains ⟨0, 5⟩ := by
  decide

/-! ### Centroid-step characterization -/

theorem centroid_foldl (img : Image) (l : List Point) (a : Int × Int × Int) :
    l.foldl
      (fun acc p => if qualifies img p then (acc.1 + p.x, acc.2.1 + p.y, acc.2.2 + 1) else acc)
      a =
      (a.1 + ((l.filter (fun p => qualifies img p)).map Point.x).sum,
       a.2.1 + ((l.filter (fun p => qualifies img p)).map Point.y).sum,
       a.2.2 + ((l.filter (fun p => qualifies img p)).length : Int)) := by
  induction l generalizing a with
  | nil => simp
  | cons p l ih =>
    by_cases hq : qualifies img p
    · simp only [List.foldl_cons, if_pos hq, ih, List.filter_cons, hq, if_true,
        List.map_cons, List.sum_cons, List.length_cons]
      refine congrArg₂ Prod.mk (by ring) (congrArg₂ Prod.mk (by ring) (by push_cast; ring))
    · simp only [List.foldl_cons, if_neg hq, ih, List.filter_cons, hq, Bool.false_eq_true,
        if_false]

theorem centroidSums_eq (img : Image) :
    centroidSums img =
      (((qualifyingPixels img).map Point.x).sum,
       ((qualifyingPixels img).map Point.y).sum,
       ((qualifyingPixels img).length : Int)) := by
  unfold centroidSums qualifyingPixels
  rw [centroid_foldl]
  simp

theorem computeLuminalCenter_empty (img : Image) (hempty : qualifyingPixels img = []) :
    computeLuminalCenter img = {} := by
  unfold computeLuminalCenter
  dsimp only
  rw [centroidSums_eq img, hempty]
  simp

theorem computeLuminalCenter_center (img : Image) (hne : qualifyingPixels img ≠ []) :
    (computeLuminalCenter img).luminalCenter =
      ⟨goDiv (((qualifyingPixels img).map Point.x).sum) ((qualifyingPixels img).length : Int),
       goDiv (((qualifyingPixels img).map Point.y).sum) ((qualifyingPixels img).length : Int)⟩ := by
  unfold computeLuminalCenter
  dsimp only
  rw [centroidSums_eq img]
  rw [if_neg (by simpa using hne)]

/-- C3: the centroid scan accumulates its sums and count over exactly the
scanned pixels whose red channel lies strictly inside `(0x0300, 0xfff0)`;
with at least one qualifying pixel the centroid is `(sumX/n, sumY/n)` with
truncating integer division, and with none the whole limb value is left at
its zero value (centroid at the origin, no error). -/
theorem c3_centroid_step (img : Image) :
    (∀ p : Point, p ∈ qualifyingPixels img ↔
      (img.bounds.contains p ∧ 0x0300 < img.red p ∧ img.red p < 0xfff0)) ∧
    centroidSums img =
      (((qualifyingPixels img).map Point.x).sum,
       ((qualifyingPixels img).map Point.y).sum,
       ((qualifyingPixels img).length : Int)) ∧
    (qualifyingPixels img = [] → computeLuminalCenter img = {}) ∧
    (qualifyingPixels img ≠ [] → (computeLuminalCenter img).luminalCenter =
      ⟨goDiv (((qualifyingPixels img).map Point.x).sum) ((qualifyingPixels img).length : Int),
       goDiv (((qualifyingPixels img).map Point.y).sum) ((qualifyingPixels img).length : Int)⟩) := by
  refine ⟨?_, centroidSums_eq img, computeLuminalCenter_empty img,
    computeLuminalCenter_center img⟩
  intro p
  unfold qualifyingPixels qualifies
  rw [List.mem_filter, mem_scanPoints]
  simp only [Bool.and_eq_true, decide_eq_true_eq]

/-- C3 witness: the theorem applied to the one-qualifying-pixel image
`imgRow3` (centroid (1,0)) and to the qualifying-pixel-free image
`imgNoQual` (limb left at the zero value). -/
theorem c3_centroid_step_witness :
    ((⟨1, 0⟩ : Point) ∈ qualifyingPixels imgRow3 ∧
      (computeLuminalCenter imgRow3).luminalCenter =
        ⟨goDiv (((qualifyingPixels imgRow3).map Point.x).sum) ((qualifyingPixels imgRow3).length : Int),
         goDiv (((qualifyingPixels imgRow3).map Point.y).sum) ((qualifyingPixels imgRow3).length : Int)⟩) ∧
    computeLuminalCenter imgNoQual = {} :=
  ⟨⟨((c3_centroid_step imgRow3).1 ⟨1, 0⟩).mpr (by decide),
    (c3_centroid_step imgRow3).2.2.2 (by decide)⟩,
   (c3_centroid_step imgNoQual).2.2.1 (by decide)⟩

/-! ### Brightness sample -/

theorem foldl_mod_add (f : Nat → Nat) (l : List Nat) (a : Nat) (ha : a < 65536) :
    l.foldl (fun acc i => (acc + f i % 65536) % 65536) a = (a + (l.map f).sum) % 65536 := by
  induction l generalizing a with
  | nil => simp [Nat.mod_eq_of_lt ha]
  | cons i l ih =>
    simp only [List.foldl_cons, List.map_cons, List.sum_cons]
    rw [ih _ (Nat.mod_lt _ (by omega))]
    omega

/-- C4 counterexample: on the one-pixel full-bright image `imgBright`
(every `toGray` reading is 0xFFFF) the stored brightness is 6552, because
the ten window samples are accumulated in a 16-bit register
(655350 mod 65536 = 65526, then divided by 10), while the average of
`toGray` over any 10-pixel window of this image is 65535. The claim as
stated is false at this input. -/
theorem c4_brightness_counterexample :
    (computeLuminalCenter imgBright).brightness = 6552 ∧
    (((List.range 10).map (fun (i : Nat) =>
        imgBright.gray ⟨(computeLuminalCenter imgBright).luminalCenter.x + (i : Int) - 5,
                        (computeLuminalCenter imgBright).luminalCenter.y⟩)).sum) / 10 = 65535 ∧
    (computeLuminalCenter imgBright).brightness ≠
      (((List.range 10).map (fun (i : Nat) =>
        imgBright.gray ⟨(computeLuminalCenter imgBright).luminalCenter.x + (i : Int) - 5,
                        (computeLuminalCenter imgBright).luminalCenter.y⟩)).sum) / 10 := by
  decide

/-- C4, amended: for every image with a qualifying pixel, the stored
brightness equals the sum of `toGray` over the 10 pixels at horizontal
offsets -5 through 4 from the centroid, accumulated modulo 2^16 (the Go
field is a `uint16`), then divided by 10 with integer division. -/
theorem c4_brightness_amended (img : Image) (hne : qualifyingPixels img ≠ []) :
    (computeLuminalCenter img).brightness =
      ((((List.range 10).map (fun (i : Nat) =>
          img.gray ⟨(computeLuminalCenter img).luminalCenter.x + (i : Int) - 5,
                    (computeLuminalCenter img).luminalCenter.y⟩)).sum) % 65536) / 10 := by
  have hcond : ¬ (centroidSums img).2.2 = 0 := by
    rw [centroidSums_eq]
    simpa using hne
  unfold computeLuminalCenter
  dsimp only
  rw [if_neg hcond]
  dsimp only
  rw [foldl_mod_add _ _ 0 (by omega), Nat.zero_add]

/-- C4 witness: the amended statement evaluated on the concrete image
`imgRow3`. -/
theorem c4_brightness_amended_witness :
    (computeLuminalCenter imgRow3).brightness =
      ((((List.range 10).map (fun (i : Nat) =>
          imgRow3.gray ⟨(computeLuminalCenter imgRow3).luminalCenter.x + (i : Int) - 5,
                        (computeLuminalCenter imgRow3).luminalCenter.y⟩)).sum) % 65536) / 10 :=
  c4_brightness_amended imgRow3 (by decide)

/-- C5: the flood fill of `FindLunarLimb` uses threshold 0x1000 when the
brightness sample is at least 0x0015 and threshold 0x0040 when it is
strictly below 0x0015. -/
theorem c5_threshold_policy (img : Image) :
    (0x0015 ≤ (computeLuminalCenter img).brightness → limbThresh img = 0x1000) ∧
    ((computeLuminalCenter img).brightness < 0x0015 → limbThresh img = 0x0040) := by
  unfold limbThresh chooseThresh
  constructor
  · intro h
    rw [if_neg (by omega)]
  · intro h
    rw [if_pos h]

/-- C5 witness: the dark image `imgRow3` (brightness 0) gets the lowered
threshold 0x0040; the bright image `imgWide` (brightness 1638) keeps the
default threshold 0x1000. -/
theorem c5_threshold_policy_witness :
    limbThresh imgRow3 = 0x0040 ∧ limbThresh imgWide = 0x1000 :=
  ⟨(c5_threshold_policy imgRow3).2 (by decide),
   (c5_threshold_policy imgWide).1 (by decide)⟩

/-- C6: `FindLunarLimb` halts the pipeline fatally (modelled as
`Except.error`) exactly when the computed limb has radius zero; with a
nonzero radius the limb value itself is returned to the caller. -/
theorem c6_zero_radius_fatal (img : Image) :
    (findLunarLimb img = Except.error () ↔ (findLunarLimbLL img).radius = 0) ∧
    ((findLunarLimbLL img).radius ≠ 0 → findLunarLimb img = Except.ok (findLunarLimbLL img)) := by
  unfold findLunarLimb
  dsimp only
  by_cases h : (findLunarLimbLL img).radius = 0
  · rw [if_pos h]
    exact ⟨by simp [h], fun hn => absurd h hn⟩
  · rw [if_neg h]
    exact ⟨by simp [h], fun _ => rfl⟩

/-- C6 witness: on `imgRow3` the fill accepts a 3x1 row, whose radius
`(2 + 0) / 4` is zero, so the detector is fatal; on `imgBox` the fill
accepts a 3x3 square of radius 1, which is returned. -/
theorem c6_zero_radius_fatal_witness :
    findLunarLimb imgRow3 = Except.error () ∧
    findLunarLimb imgBox = Except.ok (findLunarLimbLL imgBox) :=
  ⟨(c6_zero_radius_fatal imgRow3).1.mpr (by decide),
   (c6_zero_radius_fatal imgBox).2 (by decide)⟩

/-- C7: for every 3-component vector with all components nonzero, applying
`InvertDiag(v)` to `v` yields the all-ones vector. -/
theorem c7_invert_diag_roundtrip (v : MyVec3) (h0 : v.v0 ≠ 0) (h1 : v.v1 ≠ 0)
    (h2 : v.v2 ≠ 0) : v.invertDiag.apply v = ⟨1, 1, 1⟩ := by
  unfold MyVec3.invertDiag MyMat3.apply
  simp only [MyVec3.mk.injEq, zero_mul, add_zero, zero_add, mul_zero]
  refine ⟨?_, ?_, ?_⟩
  · rw [div_mul_cancel₀ _ h0]
    norm_num
  · rw [div_mul_cancel₀ _ h1]
    norm_num
  · rw [div_mul_cancel₀ _ h2]
    norm_num

/-- C7 witness: the round trip at the concrete all-ones vector. -/
theorem c7_invert_diag_roundtrip_witness :
    (MyVec3.mk 1 1 1).invertDiag.apply ⟨1, 1, 1⟩ = ⟨1, 1, 1⟩ :=
  c7_invert_diag_roundtrip ⟨1, 1, 1⟩ one_ne_zero one_ne_zero one_ne_zero

/-- C8: for every angle and pivot, the affine transform
`MatRotateAbout(theta, x, y)` maps the pivot `(x, y)` to itself; over the
reals (the idealization of `float64`) the identity is exact. -/
theorem c8_rotate_about_fixes_pivot (thetaDeg x y : Real) :
    (MatRotateAbout thetaDeg x y).apply x y = (x, y) := by
  unfold MatRotateAbout MyAff3.matTranslate MyAff3.matRotate MatIdentity MyAff3.matMult
    MyAff3.apply
  simp only [Prod.mk.injEq]
  constructor <;> ring

/-! ### Visited-grid access safety -/

theorem fillLoop_acc_subset (b : Rect) (g : Point → Nat) (t : Nat) (s : Point) :
    ∀ (fuel : Nat) (queue : List Point) (seen : Finset Point) (ll : LunarLimb)
      (acc : List Point),
      (∀ r ∈ queue, r ∈ fillU b s) →
      (∀ r ∈ acc, r ∈ fillU b s) →
      ∀ r ∈ (fillLoop b g t fuel queue seen ll acc).2.2, r ∈ fillU b s := by
  intro fuel
  induction fuel with
  | zero =>
    intro queue seen ll acc hq ha
    cases queue <;> exact ha
  | succ fuel ih =>
    intro queue seen ll acc hq ha
    cases queue with
    | nil => exact ha
    | cons p rest =>
      have hpU : p ∈ fillU b s := hq p (List.mem_cons_self p rest)
      have hext : ∀ r ∈ acc ++ [p], r ∈ fillU b s := by
        intro r hr
        rcases List.mem_append.mp hr with hr | hr
        · exact ha r hr
        · rw [List.mem_singleton] at hr
          subst hr
          exact hpU
      simp only [fillLoop]
      by_cases hp : p ∈ seen
      · rw [if_pos hp]
        exact ih rest seen ll (acc ++ [p])
          (fun r hr => hq r (List.mem_cons_of_mem p hr)) hext
      · rw [if_neg hp]
        by_cases hgt : t < g p
        · rw [if_pos hgt]
          exact ih rest (insert p seen) ll (acc ++ [p])
            (fun r hr => hq r (List.mem_cons_of_mem p hr)) hext
        · rw [if_neg hgt]
          apply ih _ (insert p seen) (ll.grow p) (acc ++ [p] ++ neighborProbes b p)
          · intro r hr
            rcases List.mem_append.mp hr with hr | hr
            · exact hq r (List.mem_cons_of_mem p hr)
            · exact probes_mem_fillU hpU (List.mem_filter.mp hr).1
          · intro r hr
            rcases List.mem_append.mp hr with hr | hr
            · exact hext r hr
            · exact probes_mem_fillU hpU hr

theorem list_sum_le (l : List Int) (hi : Int) (h : ∀ v ∈ l, v ≤ hi) :
    l.sum ≤ (l.length : Int) * hi := by
  induction l with
  | nil => simp
  | cons a l ih =>
    simp only [List.sum_cons, List.length_cons]
    have h1 : a ≤ hi := h a (List.mem_cons_self a l)
    have h2 := ih (fun v hv => h v (List.mem_cons_of_mem a hv))
    have h3 : ((l.length : Int) + 1) * hi = (l.length : Int) * hi + hi := by ring
    push_cast
    rw [h3]
    linarith

theorem list_le_sum (l : List Int) (lo : Int) (h : ∀ v ∈ l, lo ≤ v) :
    (l.length : Int) * lo ≤ l.sum := by
  induction l with
  | nil => simp
  | cons a l ih =>
    simp only [List.sum_cons, List.length_cons]
    have h1 : lo ≤ a := h a (List.mem_cons_self a l)
    have h2 := ih (fun v hv => h v (List.mem_cons_of_mem a hv))
    have h3 : ((l.length : Int) + 1) * lo = (l.length : Int) * lo + lo := by ring
    push_cast
    rw [h3]
    linarith

theorem goDiv_bounds {S n lo hi : Int} (hn : 0 < n) (hlo : 0 ≤ lo)
    (h1 : n * lo ≤ S) (h2 : S ≤ n * hi) : lo ≤ goDiv S n ∧ goDiv S n ≤ hi := by
  have hS : 0 ≤ S := le_trans (by positivity) h1
  rw [goDiv, Int.tdiv_eq_ediv hS (le_of_lt hn)]
  constructor
  · exact (Int.le_ediv_iff_mul_le hn).mpr (by linarith [h1])
  · have hlt : S / n < hi + 1 := by
      apply (Int.ediv_lt_iff_lt_mul hn).mpr
      have : (hi + 1) * n = n * hi + n := by ring
      omega
    omega

theorem centroid_in_bounds (img : Image) (hne : qualifyingPixels img ≠ [])
    (h1 : 0 ≤ img.bounds.min.x) (h3 : 0 ≤ img.bounds.min.y) :
    img.bounds.contains (computeLuminalCenter img).luminalCenter := by
  have hmem : ∀ p ∈ qualifyingPixels img, img.bounds.contains p := fun p hp =>
    mem_scanPoints.mp (List.mem_of_mem_filter hp)
  have hlen : 0 < (qualifyingPixels img).length := List.length_pos.mpr hne
  have hn : (0 : Int) < ((qualifyingPixels img).length : Int) := by exact_mod_cast hlen
  rw [computeLuminalCenter_center img hne]
  have hxlo : ((qualifyingPixels img).length : Int) * img.bounds.min.x ≤
      (((qualifyingPixels img).map Point.x).sum) := by
    have := list_le_sum ((qualifyingPixels img).map Point.x) img.bounds.min.x ?_
    · simpa using this
    · intro v hv
      obtain ⟨p, hp, rfl⟩ := List.mem_map.mp hv
      exact (hmem p hp).1
  have hxhi : (((qualifyingPixels img).map Point.x).sum) ≤
      ((qualifyingPixels img).length : Int) * img.bounds.max.x := by
    have := list_sum_le ((qualifyingPixels img).map Point.x) img.bounds.max.x ?_
    · simpa using this
    · intro v hv
      obtain ⟨p, hp, rfl⟩ := List.mem_map.mp hv
      exact (hmem p hp).2.1
  have hylo : ((qualifyingPixels img).length : Int) * img.bounds.min.y ≤
      (((qualifyingPixels img).map Point.y).sum) := by
    have := list_le_sum ((qualifyingPixels img).map Point.y) img.bounds.min.y ?_
    · simpa using this
    · intro v hv
      obtain ⟨p, hp, rfl⟩ := List.mem_map.mp hv
      exact (hmem p hp).2.2.1
  have hyhi : (((qualifyingPixels img).map Point.y).sum) ≤
      ((qualifyingPixels img).length : Int) * img.bounds.max.y := by
    have := list_sum_le ((qualifyingPixels img).map Point.y) img.bounds.max.y ?_
    · simpa using this
    · intro v hv
      obtain ⟨p, hp, rfl⟩ := List.mem_map.mp hv
      exact (hmem p hp).2.2.2
  have hx := goDiv_bounds hn h1 hxlo hxhi
  have hy := goDiv_bounds hn h3 hylo hyhi
  exact ⟨hx.1, hx.2, hy.1, hy.2⟩

/-- C9, amended: for every image whose pixel bounds lie within `[0, 10000)`
on both axes, every index with which the fill accesses the fixed
10000-by-10000 `seen` grid is in range; and the accesses are not always in
range: there is an image whose bounds contain an x coordinate of 10000 or
more on which the fill performs an out-of-range access (the original
claim's "for any such image some access is out of range" fails, see the
counterexample). -/
theorem c9_visited_grid (img : Image)
    (h1 : 0 ≤ img.bounds.min.x) (h2 : img.bounds.max.x < 10000)
    (h3 : 0 ≤ img.bounds.min.y) (h4 : img.bounds.max.y < 10000) :
    (∀ a ∈ findLunarLimbAccesses img, accessInRange a) ∧
    (∃ img2 : Image, 10000 ≤ img2.bounds.max.x ∧
      ∃ a ∈ findLunarLimbAccesses img2, ¬ accessInRange a) := by
  constructor
  · have hseed : 0 ≤ (computeLuminalCenter img).luminalCenter.x ∧
        (computeLuminalCenter img).luminalCenter.x < 10000 ∧
        0 ≤ (computeLuminalCenter img).luminalCenter.y ∧
        (computeLuminalCenter img).luminalCenter.y < 10000 := by
      by_cases hne : qualifyingPixels img = []
      · rw [computeLuminalCenter_empty img hne]
        norm_num
      · obtain ⟨ha, hb, hc, hd⟩ := centroid_in_bounds img hne h1 h3
        omega
    intro a ha
    have ha2 : a ∈ (fillLoop img.bounds img.gray (limbThresh img)
        (fillFuel img.bounds (computeLuminalCenter img).luminalCenter)
        [(computeLuminalCenter img).luminalCenter] ∅ (computeLuminalCenter img) []).2.2 := ha
    have haU := fillLoop_acc_subset img.bounds img.gray (limbThresh img)
      (computeLuminalCenter img).luminalCenter _ _ _ _ _
      (fun r hr => by
        rw [List.mem_singleton] at hr
        subst hr
        exact seed_mem_fillU _ _)
      (fun r hr => absurd hr (List.not_mem_nil r)) a ha2
    have hm := mem_fillU.mp haU
    exact ⟨by omega, by omega, by omega, by omega⟩
  · exact ⟨imgEdge, by decide, by decide⟩

/-- C9 witness: the amended statement applied to the in-range image
`imgBox`. -/
theorem c9_visited_grid_witness :
    (∀ a ∈ findLunarLimbAccesses imgBox, accessInRange a) ∧
    (∃ img2 : Image, 10000 ≤ img2.bounds.max.x ∧
      ∃ a ∈ findLunarLimbAccesses img2, ¬ accessInRange a) :=
  c9_visited_grid imgBox (by decide) (by decide) (by decide) (by decide)

/-- C9 counterexample: `imgWide`'s bounds contain the x coordinate 10000,
yet every access the fill performs is in range — the fill is blocked at its
seed pixel (gray 0x2000 exceeds the threshold 0x1000), so it never reaches
the out-of-range column. This refutes the claim's "for any image whose
bounds contain ... a coordinate of 10000 or more, some access is out of
range". -/
theorem c9_counterexample :
    10000 ≤ imgWide.bounds.max.x ∧
      ∀ a ∈ findLunarLimbAccesses imgWide, accessInRange a := by
  decide

/-- C10: the detector treats the image bounds as inclusive of the `Max`
corner on both axes: the centroid scan's pixel sequence consists of exactly
the points with `Min ≤ p ≤ Max` componentwise (so pixels at the `Max`
coordinates are read), and the fill's neighbor enqueueing from an in-bounds
pixel stays within the inclusive rectangle and reaches the coordinates
`Max.X` and `Max.Y` themselves. -/
theorem c10_inclusive_bounds (b : Rect) :
    (∀ p : Point, p ∈ scanPoints b ↔ b.contains p) ∧
    (∀ p q : Point, b.contains p → q ∈ neighborProbes b p → b.contains q) ∧
    (∀ y : Int, b.min.x < b.max.x →
      (⟨b.max.x, y⟩ : Point) ∈ neighborProbes b ⟨b.max.x - 1, y⟩) ∧
    (∀ x : Int, b.min.y < b.max.y →
      (⟨x, b.max.y⟩ : Point) ∈ neighborProbes b ⟨x, b.max.y - 1⟩) := by
  refine ⟨fun p => mem_scanPoints, ?_, ?_, ?_⟩
  · intro p q hp hq
    obtain ⟨ha, hb, hc, hd⟩ := hp
    rcases mem_neighborProbes.mp hq with ⟨h, rfl⟩ | ⟨h, rfl⟩ | ⟨h, rfl⟩ | ⟨h, rfl⟩ <;>
      exact ⟨by dsimp only; omega, by dsimp only; omega, by dsimp only; omega,
        by dsimp only; omega⟩
  · intro y hlt
    apply mem_neighborProbes.mpr
    refine Or.inr (Or.inr (Or.inl ⟨by dsimp only; omega, ?_⟩))
    dsimp only
    congr 1
    omega
  · intro x hlt
    apply mem_neighborProbes.mpr
    refine Or.inr (Or.inr (Or.inr ⟨by dsimp only; omega, ?_⟩))
    dsimp only
    congr 1
    omega

/-- C10 witness: on the concrete bounds `[(0,0), (2,3)]`: the `Max` corner
(2,3) is scanned; the probe (2,2) of the in-bounds pixel (2,3) is in
bounds; and the probes from (1,0) and (0,2) reach `Max.X = 2` and
`Max.Y = 3` respectively. -/
theorem c10_inclusive_bounds_witness :
    ((⟨2, 3⟩ : Point) ∈ scanPoints ⟨⟨0, 0⟩, ⟨2, 3⟩⟩) ∧
    Rect.contains ⟨⟨0, 0⟩, ⟨2, 3⟩⟩ ⟨2, 2⟩ ∧
    ((⟨2, 0⟩ : Point) ∈ neighborProbes ⟨⟨0, 0⟩, ⟨2, 3⟩⟩ ⟨2 - 1, 0⟩) ∧
    ((⟨0, 3⟩ : Point) ∈ neighborProbes ⟨⟨0, 0⟩, ⟨2, 3⟩⟩ ⟨0, 3 - 1⟩) :=
  ⟨((c10_inclusive_bounds ⟨⟨0, 0⟩, ⟨2, 3⟩⟩).1 ⟨2, 3⟩).mpr (by decide),
   (c10_inclusive_bounds ⟨⟨0, 0⟩, ⟨2, 3⟩⟩).2.1 ⟨2, 3⟩ ⟨2, 2⟩ (by decide) (by decide),
   (c10_inclusive_bounds ⟨⟨0, 0⟩, ⟨2, 3⟩⟩).2.2.1 0 (by decide),
   (c10_inclusive_bounds ⟨⟨0, 0⟩, ⟨2, 3⟩⟩).2.2.2 0 (by decide)⟩

end Estack
